import Mathlib

set_option linter.unusedSectionVars false

/-!
Shallow embedding of the `eyebraus/collections` library.

The library has three parts: a string-keyed mapping type `Dict` (src/dict/dict.ts),
an ordered sequence type `List` with head/end/front/tail/unique/group operations
(src/list, bundled in src/collection/collection.ts), and a union/dispatch layer.

A JavaScript object with string keys and unique own properties is embedded as an
association list `List (String × V)` in enumeration order; property assignment
`m[k] = v` overwrites the existing entry in place (keeping its enumeration
position) or appends a fresh entry.  The foundation module's `Maybe` type is a
two-variant sum.  Strict equality `===` on values is embedded as decidable
equality on the value type.
-/

universe u

/-- The foundation layer's optional value: `Something` wraps a defined value,
`Nothing` holds no value. -/
inductive Maybe (V : Type u) : Type u where
  | Nothing : Maybe V
  | Something : V → Maybe V
  deriving DecidableEq, Repr

/-- The foundation layer's `wrap`: a possibly-absent value (`Option`, with
`none` standing for JavaScript `undefined`) becomes `Nothing` or `Something`. -/
def wrap {V : Type u} (o : Option V) : Maybe V :=
  match o with
  | none => Maybe.Nothing
  | some v => Maybe.Something v

/-- `Dict<TValue>`: a string-keyed object, embedded as its entry list in
enumeration order.  Well-formed dictionaries have pairwise-distinct keys. -/
abbrev Dict (V : Type u) : Type u := List (String × V)

namespace Dict

variable {V : Type} [DecidableEq V]

/-- Own-property read `dict[key]`: the value stored at `key`, or `none`
(JavaScript `undefined`) when the object has no such own property. -/
def objGet (m : Dict V) (k : String) : Option V :=
  match m with
  | [] => none
  | p :: rest => if p.1 = k then some p.2 else objGet rest k

/-- Property assignment `dict[key] = value`: overwrite the existing entry in
place when the key is present, otherwise append a new entry (string keys
enumerate in insertion order). -/
def objSet (m : Dict V) (k : String) (v : V) : Dict V :=
  if (objGet m k).isSome then
    m.map (fun p => if p.1 = k then (k, v) else p)
  else
    m ++ [(k, v)]

/-- `has(dict, key)`: `Object.hasOwn(dict, key)`. -/
def has (m : Dict V) (k : String) : Bool :=
  (objGet m k).isSome

/-- `get(dict, key)`: `Something(dict[key])` when `has`, else `Nothing()`. -/
def get (m : Dict V) (k : String) : Maybe V :=
  match objGet m k with
  | some v => Maybe.Something v
  | none => Maybe.Nothing

/-- `keys(dict)`: `Object.keys`, all keys in enumeration order. -/
def keys (m : Dict V) : List String :=
  m.map Prod.fst

/-- `entries(dict)`: `keys(dict).map(key => Pair(key, dict[key]))`. -/
def entries (m : Dict V) : List (String × V) :=
  (keys m).filterMap (fun k => (objGet m k).map (fun v => (k, v)))

/-- Inserting a run of pairs into an accumulator object, one property
assignment per pair; shared shape of both branches of the `Dict` constructor. -/
def insertAll (acc : Dict V) (ps : List (String × V)) : Dict V :=
  ps.foldl (fun a p => objSet a p.1 p.2) acc

/-- `Dict(pairs)`, array branch of the constructor: start from the empty object
and assign each pair in sequence order (a later pair with the same key wins). -/
def ofPairs (ps : List (String × V)) : Dict V :=
  insertAll [] ps

/-- `Dict(dict)`, existing-mapping branch of the constructor: copy by
assigning `map[key] = value[key]` for each key in enumeration order. -/
def copy (m : Dict V) : Dict V :=
  insertAll [] (entries m)

/-- `filter(dict, predicate)`: build a copy holding the passing entries,
tracking whether anything was filtered out; return the original object when
nothing was. -/
def filter (m : Dict V) (p : V → String → Bool) : Dict V :=
  let cp := (entries m).foldl (fun a q => if p q.2 q.1 then objSet a q.1 q.2 else a) []
  if (entries m).any (fun q => ! p q.2 q.1) then cp else m

/-- `remove(dict, key)`: the original object when the key is absent, otherwise
a copy with that one property deleted. -/
def remove (m : Dict V) (k : String) : Dict V :=
  if has m k then List.filter (fun p => decide (p.1 ≠ k)) (copy m) else m

/-- `set(dict, key, value)`: the original object when `dict[key] === value`,
otherwise a copy with the property assigned. -/
def set (m : Dict V) (k : String) (v : V) : Dict V :=
  if objGet m k = some v then m else objSet (copy m) k v

/-- `merge(...dicts)`: empty object for no arguments, the argument itself for
one, otherwise fold `set` over every entry of each subsequent dictionary onto
an accumulator seeded with the first. -/
def merge (ds : List (Dict V)) : Dict V :=
  match ds with
  | [] => []
  | [d] => d
  | d :: rest =>
    rest.foldl (fun acc d2 => (entries d2).foldl (fun a q => set a q.1 q.2) acc) d

/-- The value a key receives from `merge`, as the specification describes it:
the value from the rightmost argument dictionary containing that key,
`Nothing` when none does. -/
def lastWins (ds : List (Dict V)) (k : String) : Maybe V :=
  ds.foldl (fun acc d => if has d k then get d k else acc) Maybe.Nothing

end Dict

section ListOps

variable {V : Type} [DecidableEq V]

/-- JavaScript indexed read `list[i]` with a possibly negative index:
`undefined` (here `none`) out of bounds. -/
def jsIndex (l : List V) (i : Int) : Option V :=
  if 0 ≤ i then l.get? i.toNat else none

/-- `head(list)`: `wrap(list[0])`. -/
def headL (l : List V) : Maybe V :=
  wrap (jsIndex l 0)

/-- `end(list)`: `wrap(list[list.length - 1])`. -/
def endL (l : List V) : Maybe V :=
  wrap (jsIndex l ((l.length : Int) - 1))

/-- `front(list)`: `list.slice(0, -1)`, all but the last element. -/
def frontL (l : List V) : List V :=
  l.take (l.length - 1)

/-- `tail(list)`: `list.slice(1)`, all but the first element. -/
def tailL (l : List V) : List V :=
  l.drop 1

/-- The loop of `unique`: walk the list with the `alreadySeen` set and the
`copy` array (which always hold the same elements, so one list serves as
both), tracking the `anyRemoved` flag; returns (copy, anyRemoved). -/
def uniqueLoop (l : List V) (seen : List V) (anyRemoved : Bool) : List V × Bool :=
  match l with
  | [] => (seen, anyRemoved)
  | v :: rest =>
    if decide (v ∈ seen) then uniqueLoop rest seen true
    else uniqueLoop rest (seen ++ [v]) anyRemoved

/-- `unique(list)`: the deduplicated copy when anything was removed, otherwise
the original list. -/
def uniqueL (l : List V) : List V :=
  let r := uniqueLoop l [] false
  if r.2 then r.1 else l

/-- `group(list, groupBy)`: pair every element with its computed key, take the
distinct keys in order, and emit one (key, members) pair per distinct key. -/
def groupL {K : Type} [DecidableEq K] (l : List V) (f : V → Nat → K) :
    List (K × List V) :=
  let pairs := l.enum.map (fun q => (f q.2 q.1, q.2))
  let groupKeys := uniqueL (pairs.map Prod.fst)
  groupKeys.map (fun gk => (gk, (pairs.filter (fun q => decide (gk = q.1))).map Prod.snd))

end ListOps

/-- Specification-side characterisation of deduplication: retain the first
occurrence of each distinct value, in original relative order — keep the head
(its own first occurrence), drop its later duplicates, recurse. -/
def specFirstOccurrences {K : Type} [DecidableEq K] : List K → List K
  | [] => []
  | x :: xs => x :: specFirstOccurrences (xs.filter (fun y => decide (y ≠ x)))
termination_by l => l.length
decreasing_by
  simp only [List.length_cons]
  exact Nat.lt_succ_of_le (List.length_filter_le _ _)

/-! ### Lemmas about the object primitives -/

namespace Dict

variable {V : Type} [DecidableEq V]

theorem objGet_append_of_none (m m2 : Dict V) (k : String) (h : objGet m k = none) :
    objGet (m ++ m2) k = objGet m2 k := by
  induction m with
  | nil => rfl
  | cons p rest ih =>
    by_cases hpk : p.1 = k
    · simp [objGet, hpk] at h
    · simp only [objGet, hpk, if_neg, List.cons_append] at h ⊢
      exact ih h

theorem objGet_eq_none_iff (m : Dict V) (k : String) :
    objGet m k = none ↔ k ∉ keys m := by
  induction m with
  | nil => simp [objGet, keys]
  | cons p rest ih =>
    by_cases hpk : p.1 = k
    · simp [objGet, hpk, keys]
    · simp [objGet, hpk, keys, ih, Ne.symm hpk]

theorem objGet_map_overwrite (m : Dict V) (k : String) (v w : V)
    (h : objGet m k = some w) :
    objGet (m.map (fun p => if p.1 = k then (k, v) else p)) k = some v := by
  induction m with
  | nil => simp [objGet] at h
  | cons p rest ih =>
    by_cases hpk : p.1 = k
    · simp [objGet, hpk]
    · have h2 : objGet rest k = some w := by simpa [objGet, hpk] using h
      simpa [objGet, hpk] using ih h2

theorem objGet_objSet_self (m : Dict V) (k : String) (v : V) :
    objGet (objSet m k v) k = some v := by
  unfold objSet
  by_cases hs : (objGet m k).isSome
  · obtain ⟨w, hw⟩ := Option.isSome_iff_exists.mp hs
    rw [if_pos hs]
    exact objGet_map_overwrite m k v w hw
  · have hn : objGet m k = none := Option.not_isSome_iff_eq_none.mp hs
    rw [if_neg hs, objGet_append_of_none m _ k hn]
    simp [objGet]

theorem objGet_map_overwrite_ne (m : Dict V) (k k2 : String) (v : V) (h : k2 ≠ k) :
    objGet (m.map (fun p => if p.1 = k then (k, v) else p)) k2 = objGet m k2 := by
  induction m with
  | nil => rfl
  | cons p rest ih =>
    by_cases hpk : p.1 = k
    · simp [objGet, hpk, Ne.symm h, ih]
    · simp [objGet, hpk, ih]

theorem objGet_append_single_ne (m : Dict V) (k k2 : String) (v : V) (h : k2 ≠ k) :
    objGet (m ++ [(k, v)]) k2 = objGet m k2 := by
  induction m with
  | nil => simp [objGet, Ne.symm h]
  | cons p rest ih =>
    by_cases hpk : p.1 = k2
    · simp [objGet, hpk]
    · simp [objGet, hpk, ih]

theorem objGet_objSet_ne (m : Dict V) (k k2 : String) (v : V) (h : k2 ≠ k) :
    objGet (objSet m k v) k2 = objGet m k2 := by
  unfold objSet
  by_cases hs : (objGet m k).isSome
  · rw [if_pos hs]
    exact objGet_map_overwrite_ne m k k2 v h
  · rw [if_neg hs]
    exact objGet_append_single_ne m k k2 v h

theorem keys_objSet_of_isSome (m : Dict V) (k : String) (v : V)
    (h : (objGet m k).isSome) :
    keys (objSet m k v) = keys m := by
  unfold objSet
  rw [if_pos h]
  unfold keys
  rw [List.map_map]
  apply List.map_congr_left
  intro p _
  by_cases hpk : p.1 = k
  · simp [Function.comp, hpk]
  · simp [Function.comp, hpk]

theorem keys_objSet_of_none (m : Dict V) (k : String) (v : V)
    (h : objGet m k = none) :
    keys (objSet m k v) = keys m ++ [k] := by
  unfold objSet
  rw [if_neg (by simp [h])]
  simp [keys]

theorem nodup_keys_objSet (m : Dict V) (k : String) (v : V)
    (h : (keys m).Nodup) : (keys (objSet m k v)).Nodup := by
  rcases ho : objGet m k with _ | w
  · rw [keys_objSet_of_none m k v ho]
    have hk : k ∉ keys m := (objGet_eq_none_iff m k).mp ho
    simp [List.nodup_append, h, hk]
  · rw [keys_objSet_of_isSome m k v (by simp [ho])]
    exact h

theorem insertAll_of_fresh (ps : List (String × V)) (acc : Dict V)
    (hfresh : ∀ p ∈ ps, objGet acc p.1 = none)
    (hnd : (ps.map Prod.fst).Nodup) :
    insertAll acc ps = acc ++ ps := by
  induction ps generalizing acc with
  | nil => simp [insertAll]
  | cons q rest ih =>
    have hq : objGet acc q.1 = none := hfresh q (by simp)
    rw [List.map_cons] at hnd
    have hnd2 := List.nodup_cons.mp hnd
    have hstep : objSet acc q.1 q.2 = acc ++ [q] := by
      unfold objSet
      rw [if_neg (by simp [hq])]
    have hfresh2 : ∀ p ∈ rest, objGet (acc ++ [q]) p.1 = none := by
      intro p hp
      rw [objGet_append_of_none _ _ _ (hfresh p (by simp [hp]))]
      have hne : p.1 ≠ q.1 := by
        intro hcontra
        exact hnd2.1 (hcontra ▸ List.mem_map_of_mem Prod.fst hp)
      simp [objGet, Ne.symm hne]
    calc insertAll acc (q :: rest)
        = insertAll (acc ++ [q]) rest := by
          unfold insertAll
          simp only [List.foldl_cons, hstep]
      _ = (acc ++ [q]) ++ rest := ih (acc ++ [q]) hfresh2 hnd2.2
      _ = acc ++ q :: rest := by simp

theorem entries_eq_self (m : Dict V) (h : (keys m).Nodup) : entries m = m := by
  induction m with
  | nil => rfl
  | cons p rest ih =>
    unfold keys at h
    rw [List.map_cons] at h
    have hc := List.nodup_cons.mp h
    unfold entries keys
    simp only [List.map_cons]
    have hhead : (objGet (p :: rest) p.1).map (fun v => ((p.1 : String), v)) =
        some (p.1, p.2) := by
      simp [objGet]
    rw [List.filterMap_cons_some
      (f := fun k => Option.map (fun v => (k, v)) (objGet (p :: rest) k)) hhead]
    have hcongr :
        (rest.map Prod.fst).filterMap
            (fun k => (objGet (p :: rest) k).map (fun v => (k, v))) =
          (rest.map Prod.fst).filterMap
            (fun k => (objGet rest k).map (fun v => (k, v))) := by
      apply List.filterMap_congr
      intro k hk
      have hne : p.1 ≠ k := by
        intro hcontra
        exact hc.1 (by rwa [hcontra])
      simp [objGet, hne]
    rw [hcongr]
    have hrest :
        (rest.map Prod.fst).filterMap
            (fun k => (objGet rest k).map (fun v => (k, v))) = rest := by
      have := ih (by unfold keys; exact hc.2)
      unfold entries keys at this
      exact this
    rw [hrest]

theorem copy_eq_self (m : Dict V) (h : (keys m).Nodup) : copy m = m := by
  unfold copy
  rw [entries_eq_self m h]
  have := insertAll_of_fresh m [] (by intro p _; rfl) (by simpa [keys] using h)
  simpa using this

theorem get_of_some (m : Dict V) (k : String) (v : V) (h : objGet m k = some v) :
    get m k = Maybe.Something v := by
  unfold get
  rw [h]

theorem get_of_none (m : Dict V) (k : String) (h : objGet m k = none) :
    get m k = Maybe.Nothing := by
  unfold get
  rw [h]

end Dict

/-! ### Lemmas about set, remove and merge -/

namespace Dict

variable {V : Type} [DecidableEq V]

theorem get_set_self (m : Dict V) (k : String) (v : V) :
    get (set m k v) k = Maybe.Something v := by
  unfold set
  by_cases hv : objGet m k = some v
  · rw [if_pos hv]
    exact get_of_some m k v hv
  · rw [if_neg hv]
    exact get_of_some _ k v (objGet_objSet_self (copy m) k v)

theorem get_set_ne (m : Dict V) (k k2 : String) (v : V) (h2 : k2 ≠ k)
    (h : (keys m).Nodup) :
    get (set m k v) k2 = get m k2 := by
  unfold set
  by_cases hv : objGet m k = some v
  · rw [if_pos hv]
  · rw [if_neg hv]
    unfold get
    rw [objGet_objSet_ne (copy m) k k2 v h2, copy_eq_self m h]

theorem nodup_keys_set (m : Dict V) (k : String) (v : V)
    (h : (keys m).Nodup) : (keys (set m k v)).Nodup := by
  unfold set
  by_cases hv : objGet m k = some v
  · rw [if_pos hv]
    exact h
  · rw [if_neg hv, copy_eq_self m h]
    exact nodup_keys_objSet m k v h

theorem set_of_present (m : Dict V) (k : String) (v : V)
    (h : objGet m k = some v) : set m k v = m := by
  unfold set
  rw [if_pos h]

theorem objGet_filter_ne_self (l : Dict V) (k : String) :
    objGet (List.filter (fun p => decide (p.1 ≠ k)) l) k = none := by
  induction l with
  | nil => rfl
  | cons p rest ih =>
    by_cases hpk : p.1 = k
    · simpa [List.filter, hpk] using ih
    · simpa [List.filter, hpk, objGet] using ih

theorem objGet_filter_ne (l : Dict V) (k k2 : String) (h : k2 ≠ k) :
    objGet (List.filter (fun p => decide (p.1 ≠ k)) l) k2 = objGet l k2 := by
  induction l with
  | nil => rfl
  | cons p rest ih =>
    rw [List.filter_cons]
    by_cases hpk : p.1 = k
    · rw [if_neg (by simp [hpk]), ih]
      have hp2 : p.1 ≠ k2 := by rw [hpk]; exact Ne.symm h
      simp [objGet, hp2]
    · rw [if_pos (by simp [hpk])]
      simp only [objGet]
      by_cases hpk2 : p.1 = k2
      · rw [if_pos hpk2, if_pos hpk2]
      · rw [if_neg hpk2, if_neg hpk2]
        exact ih

theorem get_remove_self (m : Dict V) (k : String) :
    get (remove m k) k = Maybe.Nothing := by
  unfold remove
  by_cases hh : has m k
  · rw [if_pos hh]
    exact get_of_none _ k (objGet_filter_ne_self (copy m) k)
  · rw [if_neg hh]
    have hn : objGet m k = none := by
      unfold has at hh
      exact Option.not_isSome_iff_eq_none.mp (by simpa using hh)
    exact get_of_none m k hn

theorem get_remove_ne (m : Dict V) (k k2 : String) (h2 : k2 ≠ k)
    (h : (keys m).Nodup) :
    get (remove m k) k2 = get m k2 := by
  unfold remove
  by_cases hh : has m k
  · rw [if_pos hh]
    unfold get
    rw [objGet_filter_ne (copy m) k k2 h2, copy_eq_self m h]
  · rw [if_neg hh]

theorem get_foldl_set (ps : List (String × V)) (acc : Dict V) (k : String)
    (hacc : (keys acc).Nodup) (hps : (ps.map Prod.fst).Nodup) :
    get (ps.foldl (fun a q => set a q.1 q.2) acc) k =
      match objGet ps k with
      | some v => Maybe.Something v
      | none => get acc k := by
  induction ps generalizing acc with
  | nil => rfl
  | cons q rest ih =>
    rw [List.map_cons] at hps
    have hnd := List.nodup_cons.mp hps
    simp only [List.foldl_cons]
    rw [ih (set acc q.1 q.2) (nodup_keys_set _ _ _ hacc) hnd.2]
    by_cases hk : q.1 = k
    · subst hk
      have hrest : objGet rest q.1 = none := by
        rw [objGet_eq_none_iff]
        unfold keys
        exact hnd.1
      have hhd : objGet (q :: rest) q.1 = some q.2 := by simp [objGet]
      rw [hrest, hhd]
      exact get_set_self acc q.1 q.2
    · have hhd : objGet (q :: rest) k = objGet rest k := by simp [objGet, hk]
      rw [hhd]
      rcases ho : objGet rest k with _ | v
      · exact get_set_ne acc q.1 k q.2 (Ne.symm hk) hacc
      · rfl

theorem nodup_keys_foldl_set (ps : List (String × V)) (acc : Dict V)
    (hacc : (keys acc).Nodup) :
    (keys (ps.foldl (fun a q => set a q.1 q.2) acc)).Nodup := by
  induction ps generalizing acc with
  | nil => exact hacc
  | cons q rest ih =>
    simp only [List.foldl_cons]
    exact ih _ (nodup_keys_set _ _ _ hacc)

theorem foldl_set_id (ps : List (String × V)) (m : Dict V)
    (h : ∀ q ∈ ps, objGet m q.1 = some q.2) :
    ps.foldl (fun a q => set a q.1 q.2) m = m := by
  induction ps with
  | nil => rfl
  | cons q rest ih =>
    simp only [List.foldl_cons]
    rw [set_of_present m q.1 q.2 (h q (by simp))]
    exact ih (fun p hp => h p (by simp [hp]))

theorem get_merge_foldl (rest : List (Dict V)) (acc : Dict V) (k : String)
    (hacc : (keys acc).Nodup) (hrest : ∀ d ∈ rest, (keys d).Nodup) :
    get (rest.foldl (fun a d2 => (entries d2).foldl (fun b q => set b q.1 q.2) a) acc) k =
      rest.foldl (fun r d => if has d k then get d k else r) (get acc k) := by
  induction rest generalizing acc with
  | nil => rfl
  | cons d rest2 ih =>
    simp only [List.foldl_cons]
    have hd : (keys d).Nodup := hrest d (by simp)
    rw [ih _ (nodup_keys_foldl_set _ _ hacc) (fun x hx => hrest x (by simp [hx]))]
    congr 1
    rw [entries_eq_self d hd, get_foldl_set d acc k hacc (by unfold keys at hd; exact hd)]
    rcases ho : objGet d k with _ | v
    · rw [get_of_none d k ho]
      simp [has, ho]
    · rw [if_pos (by simp [has, ho]), get_of_some d k v ho]

theorem get_merge (ds : List (Dict V)) (k : String)
    (h : ∀ d ∈ ds, (keys d).Nodup) :
    get (merge ds) k = lastWins ds k := by
  rcases ds with _ | ⟨d, _ | ⟨d2, rest⟩⟩
  · rfl
  · show get d k = lastWins [d] k
    unfold lastWins
    simp only [List.foldl_cons, List.foldl_nil]
    rcases ho : objGet d k with _ | v
    · rw [get_of_none d k ho]
      simp [has, ho]
    · rw [if_pos (by simp [has, ho])]
  · show get ((d2 :: rest).foldl
        (fun a x => (entries x).foldl (fun b q => set b q.1 q.2) a) d) k =
      lastWins (d :: d2 :: rest) k
    rw [get_merge_foldl (d2 :: rest) d k (h d (by simp))
      (fun x hx => h x (List.mem_cons_of_mem d hx))]
    unfold lastWins
    conv_rhs => rw [List.foldl_cons]
    have hinit : (if has d k then get d k else Maybe.Nothing) = get d k := by
      rcases ho : objGet d k with _ | v
      · rw [get_of_none d k ho]
        simp [has, ho]
      · rw [if_pos (by simp [has, ho])]
    rw [hinit]

theorem foldl_merge_id (rs : List (Dict V)) (m : Dict V)
    (h : ∀ d ∈ rs, ∀ q ∈ entries d, objGet m q.1 = some q.2) :
    rs.foldl (fun a d2 => (entries d2).foldl (fun b q => set b q.1 q.2) a) m = m := by
  induction rs with
  | nil => rfl
  | cons d rs2 ih =>
    simp only [List.foldl_cons]
    rw [foldl_set_id (entries d) m (h d (by simp))]
    exact ih (fun x hx => h x (by simp [hx]))

theorem merge_id (m : Dict V) (rest : List (Dict V))
    (h : ∀ d ∈ rest, ∀ q ∈ entries d, objGet m q.1 = some q.2) :
    merge (m :: rest) = m := by
  rcases rest with _ | ⟨d2, rest2⟩
  · rfl
  · show (d2 :: rest2).foldl
        (fun a x => (entries x).foldl (fun b q => set b q.1 q.2) a) m = m
    exact foldl_merge_id (d2 :: rest2) m h

end Dict

/-! ### Lemmas about unique, specFirstOccurrences and group -/

section ListLemmas

variable {V : Type} [DecidableEq V]

theorem uniqueLoop_flag_true (l : List V) (seen : List V) :
    (uniqueLoop l seen true).2 = true := by
  induction l generalizing seen with
  | nil => rfl
  | cons v rest ih =>
    unfold uniqueLoop
    split
    · exact ih seen
    · exact ih (seen ++ [v])

theorem filter_not_mem_append (rest : List V) (seen : List V) (v : V) :
    rest.filter (fun y => decide (y ∉ seen ++ [v])) =
      (rest.filter (fun y => decide (y ∉ seen))).filter (fun y => decide (y ≠ v)) := by
  rw [List.filter_filter]
  apply List.filter_congr
  intro y _
  simp [List.mem_append, not_or]
  exact Bool.and_comm _ _

theorem uniqueLoop_fst (l : List V) (seen : List V) (b : Bool) :
    (uniqueLoop l seen b).1 =
      seen ++ specFirstOccurrences (l.filter (fun y => decide (y ∉ seen))) := by
  induction l generalizing seen b with
  | nil => simp [uniqueLoop, specFirstOccurrences]
  | cons v rest ih =>
    unfold uniqueLoop
    rw [List.filter_cons]
    by_cases hv : v ∈ seen
    · rw [if_pos (by simpa using hv), if_neg (by simpa using hv)]
      exact ih seen true
    · rw [if_neg (by simpa using hv), if_pos (by simpa using hv)]
      rw [ih (seen ++ [v]) b, specFirstOccurrences]
      rw [filter_not_mem_append rest seen v]
      simp

theorem uniqueLoop_fst_of_flag_false (l : List V) (seen : List V)
    (h : (uniqueLoop l seen false).2 = false) :
    (uniqueLoop l seen false).1 = seen ++ l := by
  induction l generalizing seen with
  | nil => simp [uniqueLoop]
  | cons v rest ih =>
    unfold uniqueLoop at h ⊢
    by_cases hv : v ∈ seen
    · rw [if_pos (by simpa using hv)] at h
      rw [uniqueLoop_flag_true] at h
      exact absurd h (by simp)
    · rw [if_neg (by simpa using hv)] at h ⊢
      rw [ih (seen ++ [v]) h]
      simp

theorem uniqueL_eq_spec (l : List V) : uniqueL l = specFirstOccurrences l := by
  unfold uniqueL
  have hfst := uniqueLoop_fst l [] false
  simp only [List.nil_append] at hfst
  have hfil : l.filter (fun y => decide (y ∉ ([] : List V))) = l := by
    apply List.filter_eq_self.mpr
    intro y _
    simp
  rw [hfil] at hfst
  by_cases hflag : (uniqueLoop l [] false).2
  · rw [if_pos hflag]
    exact hfst
  · rw [if_neg hflag]
    have hl := uniqueLoop_fst_of_flag_false l []
      (by simpa using Bool.not_eq_true _ ▸ hflag)
    simp only [List.nil_append] at hl
    calc l = (uniqueLoop l [] false).1 := hl.symm
      _ = specFirstOccurrences l := hfst

theorem mem_specFirstOccurrences {K : Type} [DecidableEq K] :
    ∀ (l : List K) (y : K), y ∈ specFirstOccurrences l → y ∈ l := by
  intro l
  induction l using specFirstOccurrences.induct with
  | case1 =>
    intro y hy
    simp [specFirstOccurrences] at hy
  | case2 x xs ih =>
    intro y hy
    rw [specFirstOccurrences] at hy
    rcases List.mem_cons.mp hy with hx | hrest
    · simp [hx]
    · have := ih y hrest
      have := List.mem_of_mem_filter this
      simp [this]

theorem nodup_specFirstOccurrences {K : Type} [DecidableEq K] :
    ∀ l : List K, (specFirstOccurrences l).Nodup := by
  intro l
  induction l using specFirstOccurrences.induct with
  | case1 => simp [specFirstOccurrences]
  | case2 x xs ih =>
    rw [specFirstOccurrences]
    refine List.nodup_cons.mpr ⟨?_, ih⟩
    intro hx
    have := mem_specFirstOccurrences _ x hx
    have := List.of_mem_filter this
    simp at this

theorem specFirstOccurrences_of_nodup {K : Type} [DecidableEq K] :
    ∀ l : List K, l.Nodup → specFirstOccurrences l = l := by
  intro l
  induction l using specFirstOccurrences.induct with
  | case1 => intro _; simp [specFirstOccurrences]
  | case2 x xs ih =>
    intro h
    have hx : x ∉ xs := (List.nodup_cons.mp h).1
    have hxs : xs.Nodup := (List.nodup_cons.mp h).2
    have hfil : xs.filter (fun y => decide (y ≠ x)) = xs := by
      apply List.filter_eq_self.mpr
      intro y hy
      simp only [decide_eq_true_eq]
      intro hyx
      exact hx (hyx ▸ hy)
    rw [specFirstOccurrences, hfil]
    rw [hfil] at ih
    rw [ih hxs]

end ListLemmas

/-! ### Lemmas about group -/

theorem groupL_keys {V K : Type} [DecidableEq V] [DecidableEq K]
    (l : List V) (f : V → Nat → K) :
    (groupL l f).map Prod.fst =
      specFirstOccurrences (l.enum.map (fun q => f q.2 q.1)) := by
  simp only [groupL]
  rw [List.map_map]
  have h1 : (Prod.fst ∘ fun gk =>
      (gk, ((l.enum.map (fun q => (f q.2 q.1, q.2))).filter
        (fun q => decide (gk = q.1))).map Prod.snd)) = (id : K → K) := by
    funext gk
    rfl
  rw [h1, List.map_id, uniqueL_eq_spec]
  congr 1
  rw [List.map_map]
  rfl

theorem groupL_members {V K : Type} [DecidableEq V] [DecidableEq K]
    (l : List V) (f : V → Nat → K) (p : K × List V) (hp : p ∈ groupL l f) :
    p.2 = (l.enum.filter (fun q => decide (f q.2 q.1 = p.1))).map Prod.snd := by
  simp only [groupL] at hp
  obtain ⟨gk, hgk, hpe⟩ := List.mem_map.mp hp
  subst hpe
  simp only
  rw [List.filter_map, List.map_map]
  have hpred : ((fun q => decide (gk = q.1)) ∘ (fun q : Nat × V => (f q.2 q.1, q.2))) =
      (fun q : Nat × V => decide (f q.2 q.1 = gk)) := by
    funext q
    simp [eq_comm]
  rw [hpred]
  rfl

namespace Dict

variable {V : Type} [DecidableEq V]

theorem objGet_of_get_something (m : Dict V) (k : String) (v : V)
    (h : get m k = Maybe.Something v) : objGet m k = some v := by
  unfold get at h
  rcases ho : objGet m k with _ | w
  · rw [ho] at h
    cases h
  · rw [ho] at h
    injection h with h2
    rw [h2]

end Dict

/-! ### Claim theorems -/

/-- Claim C1: for every mapping `m`, key `k` and defined value `v`,
`get(set(m, k, v), k)` equals `Something(v)`. -/
theorem get_after_set {V : Type} [DecidableEq V] (m : Dict V) (k : String) (v : V) :
    Dict.get (Dict.set m k v) k = Maybe.Something v :=
  Dict.get_set_self m k v

/-- Claim C2: for every mapping `m` and key `k`, `get(remove(m, k), k)` is
`Nothing`; and removing an absent key returns the mapping itself unchanged. -/
theorem get_after_remove {V : Type} [DecidableEq V] (m : Dict V) (k : String) :
    Dict.get (Dict.remove m k) k = Maybe.Nothing
    ∧ (Dict.has m k = false → Dict.remove m k = m) := by
  refine ⟨Dict.get_remove_self m k, fun h => ?_⟩
  unfold Dict.remove
  rw [if_neg (by simp [h])]

/-- Witness for C2 at a concrete mapping. -/
theorem get_after_remove_witness :
    Dict.get (Dict.remove [("a", (1 : Nat))] "a") "a" = Maybe.Nothing
    ∧ Dict.remove [("a", (1 : Nat))] "b" = [("a", 1)] :=
  ⟨(get_after_remove [("a", (1 : Nat))] "a").1,
   (get_after_remove [("a", (1 : Nat))] "b").2 (by decide)⟩

/-- Claim C3: identity preservation — `filter` with an always-true predicate
returns the mapping itself, and `set` of an already-present strictly-equal
value returns the mapping itself. -/
theorem filter_set_identity {V : Type} [DecidableEq V] (m : Dict V) (k : String) (v : V) :
    Dict.filter m (fun _ _ => true) = m
    ∧ (Dict.get m k = Maybe.Something v → Dict.set m k v = m) := by
  constructor
  · unfold Dict.filter
    simp
  · intro h
    exact Dict.set_of_present m k v (Dict.objGet_of_get_something m k v h)

/-- Witness for C3 at a concrete mapping. -/
theorem filter_set_identity_witness :
    Dict.filter [("a", (2 : Nat))] (fun _ _ => true) = [("a", 2)]
    ∧ Dict.set [("a", (2 : Nat))] "a" 2 = [("a", 2)] :=
  ⟨(filter_set_identity [("a", (2 : Nat))] "a" 2).1,
   (filter_set_identity [("a", (2 : Nat))] "a" 2).2 (by decide)⟩

/-- Claim C4: `merge` of no mappings is empty; of one mapping is that mapping
itself; of several mappings resolves every key to the value of the rightmost
argument containing that key; and when no subsequent mapping introduces a
change, the first argument is returned unchanged. -/
theorem merge_spec {V : Type} [DecidableEq V] :
    Dict.merge ([] : List (Dict V)) = ([] : Dict V)
    ∧ (∀ d : Dict V, Dict.merge [d] = d)
    ∧ (∀ (ds : List (Dict V)) (k : String), (∀ d ∈ ds, (Dict.keys d).Nodup) →
        Dict.get (Dict.merge ds) k = Dict.lastWins ds k)
    ∧ (∀ (m : Dict V) (rest : List (Dict V)),
        (∀ d ∈ rest, ∀ q ∈ Dict.entries d, Dict.get m q.1 = Maybe.Something q.2) →
        Dict.merge (m :: rest) = m) := by
  refine ⟨rfl, fun d => rfl, fun ds k h => Dict.get_merge ds k h, fun m rest h => ?_⟩
  exact Dict.merge_id m rest
    (fun d hd q hq => Dict.objGet_of_get_something m q.1 q.2 (h d hd q hq))

/-- Witness for C4 at concrete mappings. -/
theorem merge_spec_witness :
    Dict.get (Dict.merge [[("a", (1 : Nat))], [("a", 2), ("b", 3)]]) "a"
      = Dict.lastWins [[("a", (1 : Nat))], [("a", 2), ("b", 3)]] "a"
    ∧ Dict.merge [[("a", (1 : Nat)), ("b", 2)], [("b", 2)]] = [("a", 1), ("b", 2)] :=
  ⟨merge_spec.2.2.1 [[("a", (1 : Nat))], [("a", 2), ("b", 3)]] "a" (by decide),
   merge_spec.2.2.2 [("a", (1 : Nat)), ("b", 2)] [[("b", 2)]] (by decide)⟩

/-- Claim C5: `group(s, keyFn)` keys the result by the distinct computed keys
in order of first appearance (one pair per distinct key), and each pair's
member sequence holds exactly the elements whose computed key equals that
pair's key, in original relative order. -/
theorem group_spec {V K : Type} [DecidableEq V] [DecidableEq K]
    (l : List V) (f : V → Nat → K) :
    (groupL l f).map Prod.fst = specFirstOccurrences (l.enum.map (fun q => f q.2 q.1))
    ∧ ((groupL l f).map Prod.fst).Nodup
    ∧ ∀ p ∈ groupL l f,
        p.2 = (l.enum.filter (fun q => decide (f q.2 q.1 = p.1))).map Prod.snd := by
  refine ⟨groupL_keys l f, ?_, fun p hp => groupL_members l f p hp⟩
  rw [groupL_keys l f]
  exact nodup_specFirstOccurrences _

/-- Witness for C5 at the specification's own example. -/
theorem group_spec_witness :
    (3, ["red"]) ∈ groupL ["red", "blue", "green"] (fun v _ => v.length)
    ∧ ((3 : Nat), ["red"]).2 =
        (((["red", "blue", "green"] : List String).enum).filter
          (fun q => decide (q.2.length = ((3 : Nat), ["red"]).1))).map Prod.snd :=
  ⟨by decide,
   (group_spec ["red", "blue", "green"] (fun v _ => v.length)).2.2 (3, ["red"]) (by decide)⟩

/-- Claim C6: `unique` retains only the first occurrence of each distinct
value in original relative order; `unique([1,2,3,1,2])` equals `[1,2,3]` (a
different list from the input); and a duplicate-free list is returned itself
unchanged. -/
theorem unique_spec {V : Type} [DecidableEq V] :
    (∀ l : List V, uniqueL l = specFirstOccurrences l)
    ∧ (∀ l : List V, l.Nodup → uniqueL l = l)
    ∧ uniqueL ([1, 2, 3, 1, 2] : List Nat) = [1, 2, 3]
    ∧ uniqueL ([1, 2, 3, 1, 2] : List Nat) ≠ [1, 2, 3, 1, 2] := by
  refine ⟨uniqueL_eq_spec, fun l h => ?_, by decide, by decide⟩
  rw [uniqueL_eq_spec l]
  exact specFirstOccurrences_of_nodup l h

/-- Witness for C6 at a concrete duplicate-free list. -/
theorem unique_spec_witness : uniqueL ([5, 6, 7] : List Nat) = [5, 6, 7] :=
  (unique_spec (V := Nat)).2.1 [5, 6, 7] (by decide)

/-- Claim C7: rebuilding a mapping from its entry pairs yields a mapping with
exactly the same entries. -/
theorem entries_roundtrip {V : Type} [DecidableEq V] (m : Dict V)
    (h : (Dict.keys m).Nodup) :
    Dict.entries (Dict.ofPairs (Dict.entries m)) = Dict.entries m := by
  rw [Dict.entries_eq_self m h]
  have hof : Dict.ofPairs m = m := by
    unfold Dict.ofPairs
    have := Dict.insertAll_of_fresh m [] (fun p _ => rfl)
      (by unfold Dict.keys at h; exact h)
    simpa using this
  rw [hof, Dict.entries_eq_self m h]

/-- Witness for C7 at a concrete mapping. -/
theorem entries_roundtrip_witness :
    Dict.entries (Dict.ofPairs (Dict.entries [("a", (1 : Nat)), ("b", 2)])) =
      Dict.entries [("a", (1 : Nat)), ("b", 2)] :=
  entries_roundtrip [("a", (1 : Nat)), ("b", 2)] (by decide)

/-- Claim C8: `head` and `end` return `Something` of the first/last element on
a non-empty sequence and `Nothing` on the empty sequence, as total functions
with no out-of-bounds access. -/
theorem head_end_spec {V : Type} (x : V) (xs : List V) :
    headL (x :: xs) = Maybe.Something x
    ∧ endL (xs ++ [x]) = Maybe.Something x
    ∧ headL ([] : List V) = Maybe.Nothing
    ∧ endL ([] : List V) = Maybe.Nothing := by
  refine ⟨?_, ?_, rfl, rfl⟩
  · unfold headL jsIndex
    rw [if_pos (by omega)]
    rfl
  · unfold endL jsIndex
    have hlen : ((xs ++ [x]).length : Int) - 1 = (xs.length : Int) := by
      simp
    rw [hlen, if_pos (by omega)]
    have htn : ((xs.length : Int)).toNat = xs.length := by simp
    rw [htn, List.get?_eq_getElem?, List.getElem?_concat_length]
    rfl

/-- Claim C9: for sequences of length at least two, `front(tail(s))` equals
`tail(front(s))`; for length zero or one, `front` and `tail` both give the
empty sequence. -/
theorem front_tail_spec {V : Type} (l : List V) :
    (2 ≤ l.length → frontL (tailL l) = tailL (frontL l))
    ∧ (l.length ≤ 1 → frontL l = [] ∧ tailL l = []) := by
  constructor
  · intro h
    unfold frontL tailL
    rw [List.length_drop, List.take_drop]
    have harith : 1 + (l.length - 1 - 1) = l.length - 1 := by omega
    rw [harith]
  · intro h
    rcases l with _ | ⟨a, _ | ⟨b, rest⟩⟩
    · exact ⟨rfl, rfl⟩
    · exact ⟨rfl, rfl⟩
    · simp at h

/-- Witness for C9 at concrete sequences. -/
theorem front_tail_spec_witness :
    frontL (tailL ([1, 2, 3] : List Nat)) = tailL (frontL ([1, 2, 3] : List Nat))
    ∧ frontL ([] : List Nat) = [] ∧ tailL ([] : List Nat) = [] :=
  ⟨(front_tail_spec ([1, 2, 3] : List Nat)).1 (by decide),
   ((front_tail_spec ([] : List Nat)).2 (by decide)).1,
   ((front_tail_spec ([] : List Nat)).2 (by decide)).2⟩

/-- Claim C10: frame property — `set` and `remove` at key `k` do not change
the value observed by `get` at any other key. -/
theorem frame_set_remove {V : Type} [DecidableEq V] (m : Dict V)
    (k k2 : String) (v : V) (hne : k2 ≠ k) (hnd : (Dict.keys m).Nodup) :
    Dict.get (Dict.set m k v) k2 = Dict.get m k2
    ∧ Dict.get (Dict.remove m k) k2 = Dict.get m k2 :=
  ⟨Dict.get_set_ne m k k2 v hne hnd, Dict.get_remove_ne m k k2 hne hnd⟩

/-- Witness for C10 at a concrete mapping. -/
theorem frame_set_remove_witness :
    Dict.get (Dict.set [("a", (1 : Nat))] "a" 9) "b" = Dict.get [("a", (1 : Nat))] "b"
    ∧ Dict.get (Dict.remove [("a", (1 : Nat))] "a") "b" = Dict.get [("a", (1 : Nat))] "b" :=
  frame_set_remove [("a", (1 : Nat))] "a" "b" 9 (by decide) (by decide)
